import Mathlib

/-!
Verification development for a PHP-serialization codec (the wire format of
PHP's serialize()/unserialize(), bridged to a statically typed host data
model).  The repository's public surface is `from_bytes`, `to_vec` and
`deserialize_unordered_array`; the codec itself (lexical primitives, decoder
driver, encoder driver, array adapter, unordered-array helper and the error
taxonomy) is modelled here from the specification, shallowly embedded over
byte lists (`List Nat`, one entry per octet).

Modelling conventions:
* Machine integers are `Int`/`Nat` with explicit range predicates.
* Floats are modelled at the wire level: a value is NAN, INF, -INF or a
  finite decimal (sign, integer part, fraction digits); the spec only fixes
  the textual grammar and the non-finite spellings, not a bit-level float.
* Error values carry only the taxonomy kind; byte offsets are omitted.
* The decoder's recursion-depth budget (spec default 128) is an explicit
  fuel argument; the same budget is threaded through the encoder model.
-/

namespace PhpSerde

/-- Modelled from the spec: the error taxonomy of §7 (`de.rs`/`ser.rs`/
`error.rs` are not in the sources).  Byte-offset payloads are omitted. -/
inductive Err where
  | unexpectedByte
  | unexpectedEof
  | invalidInteger
  | invalidFloat
  | invalidBooleanValue
  | lengthOverflow
  | truncatedString
  | trailingData
  | lengthMismatch
  | depthExceeded
  | missingField
  | unknownField
  | unsupportedKey
  | negativeIndex
  | holeWithoutDefault
  | typeMismatch
  | integerOutOfRange
  | floatNarrowingLoss
  | notUtf8
  | notSingleChar
  | unsupportedFeature
  deriving DecidableEq, Repr

/-- Host integer widths (signed/unsigned 8/16/32/64 bits, spec §3). -/
inductive IntWidth where
  | i8 | i16 | i32 | i64 | u8 | u16 | u32 | u64
  deriving DecidableEq, Repr

def IntWidth.bits : IntWidth → Nat
  | .i8 | .u8 => 8
  | .i16 | .u16 => 16
  | .i32 | .u32 => 32
  | .i64 | .u64 => 64

def IntWidth.signed : IntWidth → Bool
  | .i8 | .i16 | .i32 | .i64 => true
  | .u8 | .u16 | .u32 | .u64 => false

def i64Max : Int := 2 ^ 63 - 1

def i64Min : Int := -(2 ^ 63)

/-- Range of the demanded integer width, per the spec's dispatch table:
unsigned N rejects negatives and values above `2^N - 1`; signed N rejects
values outside `[-2^(N-1), 2^(N-1) - 1]`. -/
def inRange (w : IntWidth) (n : Int) : Bool :=
  if w.signed then decide (-(2 ^ (w.bits - 1)) ≤ n ∧ n ≤ 2 ^ (w.bits - 1) - 1)
  else decide (0 ≤ n ∧ n < 2 ^ w.bits)

/-- Wire-level float model: PHP's textual non-finite spellings plus a finite
decimal of the grammar the encoder emits (optional sign, integer part,
optional fraction digits). -/
inductive PFloat where
  | nan
  | inf
  | neginf
  | finite (neg : Bool) (ip : Nat) (frac : List Nat)
  deriving DecidableEq, Repr

def PFloat.isNan : PFloat → Bool
  | .nan => true
  | _ => false

/-- Host map-key kinds: PHP array keys are integers or strings. -/
inductive KeyTy where
  | kint | kstr
  deriving DecidableEq, Repr

/-- A decoded map key. String keys hold unicode scalar values. -/
inductive HKey where
  | kint (n : Int)
  | kstr (cs : List Nat)
  deriving DecidableEq, Repr

/-- Host types, spec §3: unit, booleans, fixed-width integers, floats,
chars, byte strings, text strings, optionals, tuples, sequences, records
with declared field names, string- or integer-keyed maps, and newtype
(single-field tuple) structs. -/
inductive HTy where
  | unit
  | bool
  | int (w : IntWidth)
  | float
  | char
  | bytes
  | str
  | opt (t : HTy)
  | tuple (ts : List HTy)
  | seq (t : HTy)
  | record (fields : List (List Nat × HTy))
  | map (kt : KeyTy) (vt : HTy)
  | newtype (t : HTy)

/-- Host values mirroring `HTy`.  Text strings and chars hold unicode scalar
values; byte strings hold raw octets; record fields are (name bytes, value)
pairs in declared order. -/
inductive HVal where
  | vunit
  | vbool (b : Bool)
  | vint (w : IntWidth) (n : Int)
  | vfloat (f : PFloat)
  | vchar (c : Nat)
  | vbytes (bs : List Nat)
  | vstr (cs : List Nat)
  | vopt (o : Option HVal)
  | vtuple (vs : List HVal)
  | vseq (vs : List HVal)
  | vrecord (fields : List (List Nat × HVal))
  | vmap (entries : List (HKey × HVal))
  | vnewtype (v : HVal)

/-- ASCII bytes of a Lean string literal (used only for concrete examples). -/
def asc (s : String) : List Nat := s.data.map Char.toNat

/-! ### Lexical primitives (spec §4.1): decimal digits, tags, delimiters -/

def isDigit (b : Nat) : Bool := decide (48 ≤ b) && decide (b ≤ 57)

/-- Decimal digit bytes of `n`, most significant first.  The fuel argument
makes the recursion structural; `natToDigits` supplies `n` itself, which is
always sufficient fuel. -/
def natToDigitsAux : Nat → Nat → List Nat
  | 0, n => [48 + n % 10]
  | fuel + 1, n => if n < 10 then [48 + n] else natToDigitsAux fuel (n / 10) ++ [48 + n % 10]

def natToDigits (n : Nat) : List Nat := natToDigitsAux n n

/-- Decimal bytes of a signed integer: optional leading minus, then digits. -/
def intToDecimal (n : Int) : List Nat :=
  if n < 0 then 45 :: natToDigits n.natAbs else natToDigits n.toNat

/-- Accumulate a decimal value over leading digit bytes; stops at the first
non-digit and returns it with the remaining input. -/
def readDigitsAux (acc : Nat) : List Nat → Nat × List Nat
  | [] => (acc, [])
  | b :: rest =>
    if isDigit b then readDigitsAux (acc * 10 + (b - 48)) rest else (acc, b :: rest)

/-- Read an unsigned decimal integer; at least one digit is required. -/
def readUInt (input : List Nat) : Except Err (Nat × List Nat) :=
  match input with
  | [] => .error .unexpectedEof
  | b :: _ => if isDigit b then .ok (readDigitsAux 0 input) else .error .unexpectedByte

/-- Read a signed decimal integer: optional leading minus, then digits. -/
def readInt (input : List Nat) : Except Err (Int × List Nat) :=
  match input with
  | [] => .error .unexpectedEof
  | b :: rest =>
    if b = 45 then do
      let (n, r) ← readUInt rest
      .ok (-(n : Int), r)
    else do
      let (n, r) ← readUInt input
      .ok ((n : Int), r)

/-- Expect one specific delimiter byte. -/
def expectByte (c : Nat) (input : List Nat) : Except Err (List Nat) :=
  match input with
  | [] => .error .unexpectedEof
  | b :: rest => if b = c then .ok rest else .error .unexpectedByte

/-- Expect a type tag byte; a different tag is a demand mismatch. -/
def expectTag (c : Nat) (input : List Nat) : Except Err (List Nat) :=
  match input with
  | [] => .error .unexpectedEof
  | b :: rest => if b = c then .ok rest else .error .typeMismatch

/-! ### Wire tokens (encoder side) -/

/-- `i:<signed-decimal>;` -/
def iToken (n : Int) : List Nat := [105, 58] ++ intToDecimal n ++ [59]

/-- `s:<len>:"<bytes>";` with `<len>` the exact raw byte count. -/
def sToken (bs : List Nat) : List Nat :=
  [115, 58] ++ natToDigits bs.length ++ [58, 34] ++ bs ++ [34, 59]

/-- `a:<count>:{` -/
def aHeader (n : Nat) : List Nat := [97, 58] ++ natToDigits n ++ [58, 123]

/-- Textual body of a float token: `NAN`, `INF`, `-INF`, or a signed decimal
with optional fraction digits. -/
def dBody : PFloat → List Nat
  | .nan => [78, 65, 78]
  | .inf => [73, 78, 70]
  | .neginf => [45, 73, 78, 70]
  | .finite neg ip frac =>
      (if neg then [45] else []) ++ natToDigits ip ++
        (if frac = [] then [] else 46 :: frac.map (fun d => 48 + d))

/-- `d:<float>;` -/
def dToken (f : PFloat) : List Nat := [100, 58] ++ dBody f ++ [59]

/-! ### UTF-8 (host text strings and chars are UTF-8 converted byte strings) -/

/-- UTF-8 encoding of one unicode scalar value. -/
def utf8EncodeChar (n : Nat) : List Nat :=
  if n < 128 then [n]
  else if n < 2048 then [192 + n / 64, 128 + n % 64]
  else if n < 65536 then [224 + n / 4096, 128 + n / 64 % 64, 128 + n % 64]
  else [240 + n / 262144, 128 + n / 4096 % 64, 128 + n / 64 % 64, 128 + n % 64]

/-- UTF-8 encoding of a scalar-value sequence. -/
def utf8Encode (cs : List Nat) : List Nat :=
  cs.foldr (fun c acc => utf8EncodeChar c ++ acc) []

def isCont (b : Nat) : Bool := decide (128 ≤ b) && decide (b < 192)

/-- Continuation of a 2-byte UTF-8 sequence. -/
def utf8Dec2 (b : Nat) : List Nat → Except Err (Nat × List Nat)
  | b1 :: r1 =>
    if isCont b1 then .ok ((b - 192) * 64 + (b1 - 128), r1) else .error .notUtf8
  | [] => .error .notUtf8

/-- Continuation of a 3-byte UTF-8 sequence. -/
def utf8Dec3 (b : Nat) : List Nat → Except Err (Nat × List Nat)
  | b1 :: b2 :: r2 =>
    if isCont b1 && isCont b2 then
      .ok ((b - 224) * 4096 + (b1 - 128) * 64 + (b2 - 128), r2)
    else .error .notUtf8
  | _ => .error .notUtf8

/-- Continuation of a 4-byte UTF-8 sequence. -/
def utf8Dec4 (b : Nat) : List Nat → Except Err (Nat × List Nat)
  | b1 :: b2 :: b3 :: r3 =>
    if isCont b1 && isCont b2 && isCont b3 then
      .ok ((b - 240) * 262144 + (b1 - 128) * 4096 + (b2 - 128) * 64 + (b3 - 128), r3)
    else .error .notUtf8
  | _ => .error .notUtf8

/-- Decode one UTF-8 scalar value from the front of a byte list. -/
def utf8DecodeOne : List Nat → Except Err (Nat × List Nat)
  | [] => .error .notUtf8
  | b :: r =>
    if b < 128 then .ok (b, r)
    else if b < 192 then .error .notUtf8
    else if b < 224 then utf8Dec2 b r
    else if b < 240 then utf8Dec3 b r
    else if b < 248 then utf8Dec4 b r
    else .error .notUtf8

/-- Decode a whole byte list as UTF-8 scalar values (fuelled; one byte is
consumed per step, so the input length is always sufficient fuel). -/
def utf8DecodeAux : Nat → List Nat → Except Err (List Nat)
  | _, [] => .ok []
  | 0, _ :: _ => .error .notUtf8
  | fuel + 1, input => do
    let (c, r) ← utf8DecodeOne input
    let cs ← utf8DecodeAux fuel r
    .ok (c :: cs)

def utf8Decode (input : List Nat) : Except Err (List Nat) :=
  utf8DecodeAux input.length input

/-! ### Token readers -/

/-- Read a complete `i:<n>;` token.  Per spec §3 the integer host width is
64 bits signed: a token value outside the `i64` range is rejected with
`IntegerOutOfRange` (spec property 8). -/
def readIntToken (input : List Nat) : Except Err (Int × List Nat) := do
  let r ← expectTag 105 input
  let r ← expectByte 58 r
  let (n, r) ← readInt r
  if inRange .i64 n then do
    let r ← expectByte 59 r
    .ok (n, r)
  else .error .integerOutOfRange

/-- Read a complete `b:<0|1>;` token; any other value byte is invalid. -/
def readBoolToken (input : List Nat) : Except Err (Bool × List Nat) := do
  let r ← expectTag 98 input
  let r ← expectByte 58 r
  match r with
  | 48 :: r2 => do
      let r3 ← expectByte 59 r2
      .ok (false, r3)
  | 49 :: r2 => do
      let r3 ← expectByte 59 r2
      .ok (true, r3)
  | [] => .error .unexpectedEof
  | _ => .error .invalidBooleanValue

/-- Read a complete `s:<len>:"<bytes>";` token.  Exactly `<len>` raw bytes
are taken after the opening quote — the parser never scans for a closing
delimiter — and a declared length exceeding the remaining input fails with
`TruncatedString`. -/
def readStrToken (input : List Nat) : Except Err (List Nat × List Nat) := do
  let r ← expectTag 115 input
  let r ← expectByte 58 r
  let (len, r) ← readUInt r
  let r ← expectByte 58 r
  let r ← expectByte 34 r
  if len ≤ r.length then do
    let bs := r.take len
    let r2 ← expectByte 34 (r.drop len)
    let r3 ← expectByte 59 r2
    .ok (bs, r3)
  else .error .truncatedString

/-- Fraction digits after the decimal point: digit values, most significant
first, with the rest of the input. -/
def readFracDigits : List Nat → List Nat × List Nat
  | [] => ([], [])
  | b :: rest =>
    if isDigit b then
      let (fr, r) := readFracDigits rest
      ((b - 48) :: fr, r)
    else ([], b :: rest)

/-- Integer part plus optional `.`-separated fraction digits. -/
def readDecParts (input : List Nat) : Except Err (Nat × List Nat × List Nat) := do
  let (ip, r) ← readUInt input
  if r.head? = some 46 then
    let (fr, r2) := readFracDigits r.tail
    if fr = [] then .error .invalidFloat else .ok (ip, fr, r2)
  else .ok (ip, [], r)

/-- Body of a `d:` token: PHP's `NAN`, `INF`, `-INF` spellings, else a
signed decimal with optional fraction. -/
def readFloatBody (input : List Nat) : Except Err (PFloat × List Nat) :=
  if input.take 3 = [78, 65, 78] then .ok (.nan, input.drop 3)
  else if input.take 3 = [73, 78, 70] then .ok (.inf, input.drop 3)
  else if input.take 4 = [45, 73, 78, 70] then .ok (.neginf, input.drop 4)
  else if input.head? = some 45 then do
    let (ip, fr, r) ← readDecParts input.tail
    .ok (.finite true ip fr, r)
  else do
    let (ip, fr, r) ← readDecParts input
    .ok (.finite false ip fr, r)

/-- Read an array header `a:<count>:{`. -/
def readArrayHeader (input : List Nat) : Except Err (Nat × List Nat) := do
  let r ← expectTag 97 input
  let r ← expectByte 58 r
  let (n, r) ← readUInt r
  let r ← expectByte 58 r
  let r ← expectByte 123 r
  .ok (n, r)

/-! ### Encoder driver (spec §4.3): stateless over a byte sink.  The
recursion is indexed by the same depth budget as the decoder; the model does
not represent emissions nested deeper than that budget. -/

/-- Emit sequence/tuple elements with index keys `i:0; i:1; …` in order. -/
def encSeqElems (enc : HVal → Except Err (List Nat)) : Nat → List HVal → Except Err (List Nat)
  | _, [] => .ok []
  | k, v :: vs => do
    let bv ← enc v
    let rest ← encSeqElems enc (k + 1) vs
    .ok (iToken (Int.ofNat k) ++ bv ++ rest)

/-- Emit record fields as `s:` name keys in declared order. -/
def encFields (enc : HVal → Except Err (List Nat)) : List (List Nat × HVal) → Except Err (List Nat)
  | [] => .ok []
  | (n, v) :: fvs => do
    let bv ← enc v
    let rest ← encFields enc fvs
    .ok (sToken n ++ bv ++ rest)

/-- Encode a map key with the host's declared key kind: the string/integer
lexeme is never renormalized. -/
def keyBytes : HKey → List Nat
  | .kint n => iToken n
  | .kstr cs => sToken (utf8Encode cs)

/-- Emit map entries as alternating key/value encodings. -/
def encEntries (enc : HVal → Except Err (List Nat)) : List (HKey × HVal) → Except Err (List Nat)
  | [] => .ok []
  | (k, v) :: es => do
    let bv ← enc v
    let rest ← encEntries enc es
    .ok (keyBytes k ++ bv ++ rest)

/-- Modelled from the spec: the encoder driver (`ser.rs` is not in the
sources).  A `u64` above `i64::MAX` fails with `IntegerOutOfRange`;
optionals write `N;` when absent and the inner encoding when present;
sequences/tuples write index keys, records their declared field names,
newtype structs forward transparently to the inner value. -/
def encodeVal : Nat → HVal → Except Err (List Nat)
  | 0, _ => .error .depthExceeded
  | d + 1, v =>
    match v with
    | .vunit => .ok [78, 59]
    | .vbool b => .ok [98, 58, if b then 49 else 48, 59]
    | .vint _ n => if i64Max < n then .error .integerOutOfRange else .ok (iToken n)
    | .vfloat f => .ok (dToken f)
    | .vchar c => .ok (sToken (utf8EncodeChar c))
    | .vbytes bs => .ok (sToken bs)
    | .vstr cs => .ok (sToken (utf8Encode cs))
    | .vopt none => .ok [78, 59]
    | .vopt (some w) => encodeVal d w
    | .vtuple vs => do
        let body ← encSeqElems (encodeVal d) 0 vs
        .ok (aHeader vs.length ++ body ++ [125])
    | .vseq vs => do
        let body ← encSeqElems (encodeVal d) 0 vs
        .ok (aHeader vs.length ++ body ++ [125])
    | .vrecord fvs => do
        let body ← encFields (encodeVal d) fvs
        .ok (aHeader fvs.length ++ body ++ [125])
    | .vmap es => do
        let body ← encEntries (encodeVal d) es
        .ok (aHeader es.length ++ body ++ [125])
    | .vnewtype w => encodeVal d w

/-! ### Skipping unknown record fields (array adapter, spec §4.4): the value
of an unmatched key is consumed and discarded.  `skipFrames` walks values
with an explicit stack of per-container remaining-pair counts. -/

/-- Skip serialized values: the stack holds, innermost first, how many
values remain to be skipped in each open container (a pair contributes two
values); a zero frame closes its container with `}`. -/
def skipFrames : Nat → List Nat → List Nat → Except Err (List Nat)
  | 0, _, _ => .error .depthExceeded
  | _ + 1, [], input => .ok input
  | fuel + 1, 0 :: stk, input => do
    let r ← expectByte 125 input
    skipFrames fuel stk r
  | fuel + 1, (k + 1) :: stk, input =>
    match input with
    | 78 :: r => do
        let r ← expectByte 59 r
        skipFrames fuel (k :: stk) r
    | 98 :: _ => do
        let (_, r) ← readBoolToken input
        skipFrames fuel (k :: stk) r
    | 105 :: _ => do
        let (_, r) ← readIntToken input
        skipFrames fuel (k :: stk) r
    | 100 :: r => do
        let r ← expectByte 58 r
        let (_, r) ← readFloatBody r
        let r ← expectByte 59 r
        skipFrames fuel (k :: stk) r
    | 115 :: _ => do
        let (_, r) ← readStrToken input
        skipFrames fuel (k :: stk) r
    | 97 :: _ => do
        let (count, r) ← readArrayHeader input
        skipFrames fuel (2 * count :: k :: stk) r
    | _ :: _ => .error .unexpectedByte
    | [] => .error .unexpectedEof

/-- Skip one complete serialized value. -/
def skipValue (input : List Nat) : Except Err (List Nat) :=
  skipFrames (input.length + 1) [1] input

/-! ### Decoder driver and array adapter (spec §4.2, §4.4) -/

/-- First matching declared field type for a key name. -/
def lookupTy (n : List Nat) : List (List Nat × HTy) → Option HTy
  | [] => none
  | (m, ty) :: tys => if n = m then some ty else lookupTy n tys

/-- First matching collected field value for a declared name. -/
def lookupVal (n : List Nat) : List (List Nat × HVal) → Option HVal
  | [] => none
  | (m, v) :: fvs => if n = m then some v else lookupVal n fvs

/-- Sequence view of an array (spec §4.4): read `count` pairs; each key must
be an `i:` token and its value is positional, so it is discarded. -/
def parseN (p : List Nat → Except Err (HVal × List Nat)) :
    Nat → List Nat → Except Err (List HVal × List Nat)
  | 0, input => .ok ([], input)
  | count + 1, input => do
    let (_, r) ← readIntToken input
    let (v, r) ← p r
    let (vs, r) ← parseN p count r
    .ok (v :: vs, r)

/-- Tuple view: like the sequence view, but each element has its own
declared type. -/
def parseTupleElems (p : HTy → List Nat → Except Err (HVal × List Nat)) :
    List HTy → List Nat → Except Err (List HVal × List Nat)
  | [], input => .ok ([], input)
  | t :: ts, input => do
    let (_, r) ← readIntToken input
    let (v, r) ← p t r
    let (vs, r) ← parseTupleElems p ts r
    .ok (v :: vs, r)

/-- Decode one map key according to the host's declared key kind. -/
def readKeyToken (kt : KeyTy) (input : List Nat) : Except Err (HKey × List Nat) :=
  match kt with
  | .kint => do
      let (n, r) ← readIntToken input
      .ok (.kint n, r)
  | .kstr => do
      let (bs, r) ← readStrToken input
      match utf8Decode bs with
      | .ok cs => .ok (.kstr cs, r)
      | .error e => .error e

/-- Map view: yield each key/value pair in stream order. -/
def parseMapPairs (p : List Nat → Except Err (HVal × List Nat)) (kt : KeyTy) :
    Nat → List Nat → Except Err (List (HKey × HVal) × List Nat)
  | 0, input => .ok ([], input)
  | count + 1, input => do
    let (k, r) ← readKeyToken kt input
    let (v, r) ← p r
    let (es, r) ← parseMapPairs p kt count r
    .ok ((k, v) :: es, r)

/-- Record view: read each key as a byte string, dispatch matched names to
the field's typed slot, and consume-and-discard unmatched names. -/
def parseRecordPairs (p : HTy → List Nat → Except Err (HVal × List Nat))
    (tys : List (List Nat × HTy)) :
    Nat → List Nat → Except Err (List (List Nat × HVal) × List Nat)
  | 0, input => .ok ([], input)
  | count + 1, input => do
    let (name, r) ← readStrToken input
    match lookupTy name tys with
    | some ty => do
        let (v, r) ← p ty r
        let (found, r) ← parseRecordPairs p tys count r
        .ok ((name, v) :: found, r)
    | none => do
        let r ← skipValue r
        parseRecordPairs p tys count r

/-- Record finalization: missing declared fields become absent — optionals
default to none, required fields fail with `MissingField`. -/
def finalizeRecord : List (List Nat × HTy) → List (List Nat × HVal) →
    Except Err (List (List Nat × HVal))
  | [], _ => .ok []
  | (n, ty) :: tys, found =>
    match lookupVal n found with
    | some v => do
        let fs ← finalizeRecord tys found
        .ok ((n, v) :: fs)
    | none =>
      match ty with
      | .opt _ => do
          let fs ← finalizeRecord tys found
          .ok ((n, .vopt none) :: fs)
      | _ => .error .missingField

/-- Modelled from the spec: the decoder driver and array adapter (`de.rs`
is not in the sources).  The driver answers the host's typed demand by
peeking the next tag; the fuel argument is the recursion-depth budget
(spec §4.2, default 128, exceeded → `DepthExceeded`). -/
def fromValue : Nat → HTy → List Nat → Except Err (HVal × List Nat)
  | 0, _, _ => .error .depthExceeded
  | d + 1, t, input =>
    match t with
    | .unit => do
        let r ← expectTag 78 input
        let r ← expectByte 59 r
        .ok (.vunit, r)
    | .bool => do
        let (b, r) ← readBoolToken input
        .ok (.vbool b, r)
    | .int w => do
        let (n, r) ← readIntToken input
        if inRange w n then .ok (.vint w n, r) else .error .integerOutOfRange
    | .float =>
        if input.head? = some 105 then do
          let (n, r) ← readIntToken input
          .ok (.vfloat (if n < 0 then .finite true n.natAbs [] else .finite false n.toNat []), r)
        else do
          let r ← expectTag 100 input
          let r ← expectByte 58 r
          let (f, r) ← readFloatBody r
          let r ← expectByte 59 r
          .ok (.vfloat f, r)
    | .char => do
        let (bs, r) ← readStrToken input
        match utf8DecodeOne bs with
        | .ok (c, []) => .ok (.vchar c, r)
        | .ok _ => .error .notSingleChar
        | .error _ => .error .notUtf8
    | .bytes => do
        let (bs, r) ← readStrToken input
        .ok (.vbytes bs, r)
    | .str => do
        let (bs, r) ← readStrToken input
        match utf8Decode bs with
        | .ok cs => .ok (.vstr cs, r)
        | .error e => .error e
    | .opt t' =>
        if input.head? = some 78 then do
          let r ← expectTag 78 input
          let r ← expectByte 59 r
          .ok (.vopt none, r)
        else do
          let (v, r) ← fromValue d t' input
          .ok (.vopt (some v), r)
    | .tuple ts => do
        let (count, r) ← readArrayHeader input
        if count = ts.length then do
          let (vs, r) ← parseTupleElems (fromValue d) ts r
          let r ← expectByte 125 r
          .ok (.vtuple vs, r)
        else .error .lengthMismatch
    | .seq t' => do
        let (count, r) ← readArrayHeader input
        let (vs, r) ← parseN (fromValue d t') count r
        let r ← expectByte 125 r
        .ok (.vseq vs, r)
    | .record tys => do
        let (count, r) ← readArrayHeader input
        let (found, r) ← parseRecordPairs (fromValue d) tys count r
        let r ← expectByte 125 r
        let fields ← finalizeRecord tys found
        .ok (.vrecord fields, r)
    | .map kt vt => do
        let (count, r) ← readArrayHeader input
        let (es, r) ← parseMapPairs (fromValue d vt) kt count r
        let r ← expectByte 125 r
        .ok (.vmap es, r)
    | .newtype t' => do
        let (v, r) ← fromValue d t' input
        .ok (.vnewtype v, r)

/-! ### Top-level API surface (spec §6) -/

/-- The decoder's default recursion-depth limit (spec §4.2). -/
def defaultDepth : Nat := 128

/-- Encode a single top-level value (the repository's `to_vec`). -/
def to_vec (v : HVal) : Except Err (List Nat) := encodeVal defaultDepth v

/-- Decode a single top-level value; trailing bytes fail with
`TrailingData` (the repository's `from_bytes`). -/
def from_bytes (t : HTy) (input : List Nat) : Except Err HVal :=
  match fromValue defaultDepth t input with
  | .ok (v, rest) => if rest = [] then .ok v else .error .trailingData
  | .error e => .error e

/-! ### Unordered-array helper (spec §4.5) -/

/-- The element type's default value, when one exists (Rust's `Default`:
`char` and compound structs without a derived default have none). -/
def defaultVal : HTy → Option HVal
  | .unit => some .vunit
  | .bool => some (.vbool false)
  | .int w => some (.vint w 0)
  | .float => some (.vfloat (.finite false 0 []))
  | .char => none
  | .bytes => some (.vbytes [])
  | .str => some (.vstr [])
  | .opt _ => some (.vopt none)
  | .seq _ => some (.vseq [])
  | .map _ _ => some (.vmap [])
  | .tuple _ => none
  | .record _ => none
  | .newtype _ => none

/-- Integer payload of a key decoded with the integer key demand. -/
def intKeyOf : HKey → Int
  | .kint n => n
  | .kstr _ => 0

/-- First value with the given integer key. -/
def lookupIntKey (k : Int) : List (Int × HVal) → Option HVal
  | [] => none
  | (m, v) :: ps => if k = m then some v else lookupIntKey k ps

/-- Modelled from the spec: `deserialize_unordered_array` (§4.5; its code is
not in the sources).  The integer-keyed array is fully materialized, the
minimum key must be ≥ 0 (else `NegativeIndex`), and a sequence of length
`max_key + 1` is emitted in ascending key order — which is exactly the
sort-ascending-then-fill-holes presentation of the mapping — with holes
taking the element type's default value (none → `HoleWithoutDefault`). -/
def deserialize_unordered_array (t : HTy) (input : List Nat) :
    Except Err (HVal × List Nat) := do
  let (count, r) ← readArrayHeader input
  let (es, r) ← parseMapPairs (fromValue defaultDepth t) .kint count r
  let r ← expectByte 125 r
  let pairs := es.map (fun e => (intKeyOf e.1, e.2))
  match pairs with
  | [] => .ok (.vseq [], r)
  | p0 :: ps =>
    let mn := ps.foldl (fun a q => min a q.1) p0.1
    let mx := ps.foldl (fun a q => max a q.1) p0.1
    if mn < 0 then .error .negativeIndex
    else do
      let vs ← (List.range (mx.toNat + 1)).mapM (fun k =>
        match lookupIntKey (Int.ofNat k) (p0 :: ps) with
        | some v => .ok v
        | none =>
          match defaultVal t with
          | some dv => .ok dv
          | none => .error .holeWithoutDefault)
      .ok (.vseq vs, r)

/-! ### Well-formed host values

`wfB d t v` says `v` is a value of type `t`, within the domain the
round-trip law quantifies over: integers in the range of their declared
width (and, for `u64`, within the encodable `0..i64::MAX` that the tests
draw from), valid unicode scalar values where the host type is textual,
float fraction digits in `0..9`, record field names matching the declared
names (which are distinct in a host record), present optionals whose inner
encoding is not `N;` (the framework's none/some ambiguity), and nesting no
deeper than the depth budget `d`. -/

/-- Values whose encoding is the null token `N;` (absent optionals, unit,
and transparent wrappers of these). -/
def isNullEnc : HVal → Bool
  | .vunit => true
  | .vopt none => true
  | .vopt (some w) => isNullEnc w
  | .vnewtype w => isNullEnc w
  | _ => false

/-- Unicode scalar values: codepoints excluding surrogates. -/
def validScalar (n : Nat) : Bool :=
  decide (n < 55296) || (decide (57344 ≤ n) && decide (n < 1114112))

def wfKey : KeyTy → HKey → Bool
  | .kint, .kint n => inRange .i64 n
  | .kstr, .kstr cs => cs.all validScalar
  | _, _ => false

def wfFloat : PFloat → Bool
  | .finite _ _ frac => frac.all (fun d => decide (d < 10))
  | _ => true

/-- Sequence/tuple lengths representable as `i64` index keys (any real host
container satisfies this). -/
def lenOk (n : Nat) : Bool := decide (n < 2 ^ 63)

def wfList (P : HTy → HVal → Bool) : List HTy → List HVal → Bool
  | [], [] => true
  | t :: ts, v :: vs => P t v && wfList P ts vs
  | _, _ => false

def wfFields (P : HTy → HVal → Bool) :
    List (List Nat × HTy) → List (List Nat × HVal) → Bool
  | [], [] => true
  | (n, ty) :: tys, (m, v) :: fvs => decide (n = m) && P ty v && wfFields P tys fvs
  | _, _ => false

def containsName (n : List Nat) : List (List Nat) → Bool
  | [] => false
  | m :: ms => decide (n = m) || containsName n ms

def namesNodupB : List (List Nat) → Bool
  | [] => true
  | n :: ns => !(containsName n ns) && namesNodupB ns

def wfB : Nat → HTy → HVal → Bool
  | 0, _, _ => false
  | d + 1, t, v =>
    match t, v with
    | .unit, .vunit => true
    | .bool, .vbool _ => true
    | .int w, .vint w' n => decide (w = w') && inRange w n && decide (n ≤ i64Max)
    | .float, .vfloat f => wfFloat f
    | .char, .vchar c => validScalar c
    | .bytes, .vbytes bs => bs.all (fun b => decide (b < 256))
    | .str, .vstr cs => cs.all validScalar
    | .opt _, .vopt none => true
    | .opt t', .vopt (some w) => wfB d t' w && !isNullEnc w
    | .tuple ts, .vtuple vs => wfList (wfB d) ts vs && lenOk vs.length
    | .seq t', .vseq vs => vs.all (wfB d t') && lenOk vs.length
    | .record tys, .vrecord fvs =>
        wfFields (wfB d) tys fvs && namesNodupB (tys.map Prod.fst)
    | .map kt vt, .vmap es => es.all (fun e => wfKey kt e.1 && wfB d vt e.2)
    | .newtype t', .vnewtype w => wfB d t' w
    | _, _ => false

/-! ### Round-trip lemmas for the lexical primitives -/

/-- The input does not begin with a decimal digit (so a greedy digit scan
stops exactly here). -/
def nonDigitFirst : List Nat → Prop
  | [] => True
  | b :: _ => isDigit b = false

theorem isDigit_true {b : Nat} (h1 : 48 ≤ b) (h2 : b ≤ 57) : isDigit b = true := by
  simp [isDigit]; omega

theorem readDigitsAux_stop (acc : Nat) (l : List Nat) (h : nonDigitFirst l) :
    readDigitsAux acc l = (acc, l) := by
  cases l with
  | nil => rfl
  | cons b r =>
    have hb : isDigit b = false := h
    simp [readDigitsAux, hb]

theorem natToDigitsAux_digits :
    ∀ fuel n b, b ∈ natToDigitsAux fuel n → 48 ≤ b ∧ b ≤ 57 := by
  intro fuel
  induction fuel with
  | zero =>
    intro n b hb
    simp [natToDigitsAux] at hb
    omega
  | succ fuel ih =>
    intro n b hb
    simp only [natToDigitsAux] at hb
    split at hb
    · simp at hb; omega
    · simp only [List.mem_append, List.mem_singleton] at hb
      rcases hb with h | h
      · exact ih _ _ h
      · omega

theorem natToDigitsAux_ne_nil : ∀ fuel n, natToDigitsAux fuel n ≠ [] := by
  intro fuel n
  cases fuel with
  | zero => simp [natToDigitsAux]
  | succ fuel =>
    simp only [natToDigitsAux]
    split <;> simp

theorem readDigitsAux_natToDigitsAux :
    ∀ fuel n, n ≤ fuel → ∀ acc rest,
      readDigitsAux acc (natToDigitsAux fuel n ++ rest) =
        readDigitsAux (acc * 10 ^ (natToDigitsAux fuel n).length + n) rest := by
  intro fuel
  induction fuel with
  | zero =>
    intro n hn acc rest
    have h0 : n = 0 := by omega
    subst h0
    simp [natToDigitsAux, readDigitsAux, isDigit]
  | succ fuel ih =>
    intro n hn acc rest
    by_cases h10 : n < 10
    · have hd : isDigit (48 + n) = true := isDigit_true (by omega) (by omega)
      simp [natToDigitsAux, h10, readDigitsAux, hd]
    · have hle : n / 10 ≤ fuel := by omega
      have hdig : isDigit (48 + n % 10) = true := isDigit_true (by omega) (by omega)
      simp only [natToDigitsAux, if_neg h10, List.append_assoc, List.singleton_append,
        List.length_append, List.length_singleton]
      rw [ih (n / 10) hle acc ((48 + n % 10) :: rest)]
      simp only [readDigitsAux, hdig, if_true]
      have harith : (acc * 10 ^ (natToDigitsAux fuel (n / 10)).length + n / 10) * 10 +
          (48 + n % 10 - 48) = acc * 10 ^ ((natToDigitsAux fuel (n / 10)).length + 1) + n := by
        rw [pow_succ]
        generalize 10 ^ (natToDigitsAux fuel (n / 10)).length = P
        rw [Nat.add_mul, ← Nat.mul_assoc]
        omega
      rw [harith]

theorem exceptBindOk {α β : Type} (a : α) (f : α → Except Err β) :
    (Except.ok a >>= f) = f a := rfl

theorem exceptBindErr {α β : Type} (e : Err) (f : α → Except Err β) :
    ((Except.error e : Except Err α) >>= f) = Except.error e := rfl

theorem expectTag_cons (c : Nat) (l : List Nat) : expectTag c (c :: l) = .ok l := by
  simp [expectTag]

theorem expectByte_cons (c : Nat) (l : List Nat) : expectByte c (c :: l) = .ok l := by
  simp [expectByte]

theorem readUInt_natToDigits (n : Nat) (rest : List Nat) (hrest : nonDigitFirst rest) :
    readUInt (natToDigits n ++ rest) = .ok (n, rest) := by
  have hkey := readDigitsAux_natToDigitsAux n n (le_refl n) 0 rest
  rcases hd : natToDigits n with _ | ⟨b, ds⟩
  · exact absurd hd (natToDigitsAux_ne_nil n n)
  · have hd' : natToDigitsAux n n = b :: ds := hd
    have hb : 48 ≤ b ∧ b ≤ 57 := by
      apply natToDigitsAux_digits n n
      rw [hd']
      exact List.mem_cons_self _ _
    show readUInt ((b :: ds) ++ rest) = .ok (n, rest)
    simp only [List.cons_append, readUInt, isDigit_true hb.1 hb.2, if_true]
    rw [hd'] at hkey
    simp only [List.cons_append] at hkey
    rw [hkey, Nat.zero_mul, Nat.zero_add, readDigitsAux_stop n rest hrest]

theorem readInt_intToDecimal (m : Int) (rest : List Nat) (hrest : nonDigitFirst rest) :
    readInt (intToDecimal m ++ rest) = .ok (m, rest) := by
  by_cases hm : m < 0
  · simp only [intToDecimal, if_pos hm, List.cons_append, readInt, if_pos rfl]
    rw [readUInt_natToDigits _ _ hrest]
    have h1 : -((m.natAbs : Nat) : Int) = m := by omega
    simp [exceptBindOk, h1, abs_of_neg hm]
  · have hdef : intToDecimal m = natToDigits m.toNat := by simp [intToDecimal, hm]
    rcases hd : natToDigits m.toNat with _ | ⟨b, ds⟩
    · exact absurd hd (natToDigitsAux_ne_nil _ _)
    · have hd' : natToDigitsAux m.toNat m.toNat = b :: ds := hd
      have hb : 48 ≤ b ∧ b ≤ 57 := by
        apply natToDigitsAux_digits m.toNat m.toNat
        rw [hd']
        exact List.mem_cons_self _ _
      rw [hdef, hd]
      show readInt ((b :: ds) ++ rest) = .ok (m, rest)
      simp only [List.cons_append, readInt, if_neg (by omega : ¬ b = 45)]
      rw [← List.cons_append, ← hd, readUInt_natToDigits _ _ hrest]
      have h1 : ((m.toNat : Nat) : Int) = m := by omega
      simp [exceptBindOk, h1]

theorem readIntToken_iToken (m : Int) (hm : inRange .i64 m = true) (rest : List Nat) :
    readIntToken (iToken m ++ rest) = .ok (m, rest) := by
  simp only [iToken, List.append_assoc, List.cons_append, List.nil_append]
  rw [readIntToken]
  rw [expectTag_cons, exceptBindOk, expectByte_cons, exceptBindOk,
    readInt_intToDecimal m (59 :: rest) (by exact rfl), exceptBindOk]
  simp [hm, expectByte_cons, exceptBindOk]

theorem readStrToken_sToken (bs rest : List Nat) :
    readStrToken (sToken bs ++ rest) = .ok (bs, rest) := by
  simp only [sToken, List.append_assoc, List.cons_append, List.nil_append]
  rw [readStrToken]
  rw [expectTag_cons, exceptBindOk, expectByte_cons, exceptBindOk,
    readUInt_natToDigits bs.length (58 :: 34 :: (bs ++ 34 :: 59 :: rest)) (by exact rfl),
    exceptBindOk]
  have hlen : bs.length ≤ (bs ++ 34 :: 59 :: rest).length := by
    simp [List.length_append]
  have htake : (bs ++ 34 :: 59 :: rest).take bs.length = bs := List.take_left bs _
  have hdrop : (bs ++ 34 :: 59 :: rest).drop bs.length = 34 :: 59 :: rest := List.drop_left bs _
  simp only [expectByte_cons, exceptBindOk, if_pos hlen, htake, hdrop]

theorem readArrayHeader_aHeader (n : Nat) (rest : List Nat) :
    readArrayHeader (aHeader n ++ rest) = .ok (n, rest) := by
  simp only [aHeader, List.append_assoc, List.cons_append, List.nil_append]
  rw [readArrayHeader]
  rw [expectTag_cons, exceptBindOk, expectByte_cons, exceptBindOk,
    readUInt_natToDigits n (58 :: 123 :: rest) (by exact rfl), exceptBindOk]
  simp [expectByte_cons, exceptBindOk]

/-! ### Float-body round trip -/

theorem readFracDigits_enc :
    ∀ (frac : List Nat), (∀ d ∈ frac, d < 10) → ∀ rest, nonDigitFirst rest →
      readFracDigits (frac.map (fun d => 48 + d) ++ rest) = (frac, rest) := by
  intro frac
  induction frac with
  | nil =>
    intro _ rest hrest
    cases rest with
    | nil => rfl
    | cons b r =>
      have hb : isDigit b = false := hrest
      simp [readFracDigits, hb]
  | cons d ds ih =>
    intro h rest hrest
    have hd : d < 10 := h d (List.mem_cons_self _ _)
    have hdig : isDigit (48 + d) = true := isDigit_true (by omega) (by omega)
    simp only [List.map_cons, List.cons_append, readFracDigits, hdig, if_true,
      List.append_eq]
    rw [ih (fun x hx => h x (List.mem_cons_of_mem _ hx)) rest hrest]
    simp

theorem readDecParts_enc (ip : Nat) (frac : List Nat) (hf : ∀ d ∈ frac, d < 10)
    (rest : List Nat) :
    readDecParts (natToDigits ip ++
        (if frac = [] then [] else 46 :: frac.map (fun d => 48 + d)) ++ 59 :: rest) =
      .ok (ip, frac, 59 :: rest) := by
  by_cases hfe : frac = []
  · subst hfe
    have harg : natToDigits ip ++
        (if ([] : List Nat) = [] then [] else 46 :: ([] : List Nat).map (fun d => 48 + d)) ++
          59 :: rest = natToDigits ip ++ 59 :: rest := by simp
    rw [harg, readDecParts,
      readUInt_natToDigits ip (59 :: rest) (by exact rfl)]
    simp [exceptBindOk]
  · have harg : natToDigits ip ++
        (if frac = [] then [] else 46 :: frac.map (fun d => 48 + d)) ++ 59 :: rest =
          natToDigits ip ++ (46 :: (frac.map (fun d => 48 + d) ++ 59 :: rest)) := by
      simp [hfe]
    rw [harg, readDecParts,
      readUInt_natToDigits ip (46 :: (frac.map (fun d => 48 + d) ++ 59 :: rest))
        (by exact rfl)]
    simp only [exceptBindOk]
    simp only [List.head?_cons, List.tail_cons]
    rw [if_pos trivial, readFracDigits_enc frac hf (59 :: rest) (by exact rfl)]
    simp [hfe]

theorem readFloatBody_dBody (f : PFloat) (hf : wfFloat f = true) (rest : List Nat) :
    readFloatBody (dBody f ++ 59 :: rest) = .ok (f, 59 :: rest) := by
  cases f with
  | nan => rfl
  | inf => rfl
  | neginf => rfl
  | finite neg ip frac =>
    have hfr : ∀ d ∈ frac, d < 10 := by
      intro d hd
      have := hf
      simp only [wfFloat, List.all_eq_true] at this
      exact of_decide_eq_true (this d hd)
    rcases hd : natToDigits ip with _ | ⟨b, ds⟩
    · exact absurd hd (natToDigitsAux_ne_nil _ _)
    · have hd' : natToDigitsAux ip ip = b :: ds := hd
      have hb : 48 ≤ b ∧ b ≤ 57 := by
        apply natToDigitsAux_digits ip ip
        rw [hd']
        exact List.mem_cons_self _ _
      cases neg with
      | false =>
        have hshape : dBody (.finite false ip frac) ++ 59 :: rest =
            b :: (ds ++ ((if frac = [] then [] else 46 :: frac.map (fun d => 48 + d)) ++
              59 :: rest)) := by
          simp [dBody, hd]
        rw [hshape, readFloatBody]
        rw [if_neg (by
          simp only [List.take_succ_cons, List.cons.injEq]
          rintro ⟨h78, -⟩
          omega)]
        rw [if_neg (by
          simp only [List.take_succ_cons, List.cons.injEq]
          rintro ⟨h73, -⟩
          omega)]
        rw [if_neg (by
          simp only [List.take_succ_cons, List.cons.injEq]
          rintro ⟨h45, -⟩
          omega)]
        rw [if_neg (by
          simp only [List.head?_cons, Option.some.injEq]
          omega)]
        rw [show (b :: (ds ++ ((if frac = [] then [] else
              46 :: frac.map (fun d => 48 + d)) ++ 59 :: rest))) =
            natToDigits ip ++ ((if frac = [] then [] else
              46 :: frac.map (fun d => 48 + d)) ++ 59 :: rest) by simp [hd]]
        rw [← List.append_assoc, readDecParts_enc ip frac hfr rest]
        simp [exceptBindOk]
      | true =>
        have hshape : dBody (.finite true ip frac) ++ 59 :: rest =
            45 :: (b :: (ds ++ ((if frac = [] then [] else
              46 :: frac.map (fun d => 48 + d)) ++ 59 :: rest))) := by
          simp [dBody, hd]
        rw [hshape, readFloatBody]
        rw [if_neg (by simp)]
        rw [if_neg (by simp)]
        rw [if_neg (by
          simp only [List.take_succ_cons, List.cons.injEq]
          rintro ⟨-, h73, -⟩
          omega)]
        rw [if_pos (by simp)]
        simp only [List.tail_cons]
        rw [show (b :: (ds ++ ((if frac = [] then [] else
              46 :: frac.map (fun d => 48 + d)) ++ 59 :: rest))) =
            natToDigits ip ++ ((if frac = [] then [] else
              46 :: frac.map (fun d => 48 + d)) ++ 59 :: rest) by simp [hd]]
        rw [← List.append_assoc, readDecParts_enc ip frac hfr rest]
        simp [exceptBindOk]

/-! ### UTF-8 round trip -/

theorem validScalar_lt {n : Nat} (h : validScalar n = true) : n < 1114112 := by
  simp [validScalar] at h
  omega

theorem utf8EncodeChar_ne_nil (n : Nat) : utf8EncodeChar n ≠ [] := by
  unfold utf8EncodeChar
  split
  · simp
  · split
    · simp
    · split <;> simp

theorem utf8EncodeChar_length_pos (n : Nat) : 1 ≤ (utf8EncodeChar n).length := by
  rcases h : utf8EncodeChar n with _ | ⟨b, bs⟩
  · exact absurd h (utf8EncodeChar_ne_nil n)
  · simp

theorem utf8DecodeOne_cons (b : Nat) (r : List Nat) :
    utf8DecodeOne (b :: r) =
      if b < 128 then .ok (b, r)
      else if b < 192 then .error .notUtf8
      else if b < 224 then utf8Dec2 b r
      else if b < 240 then utf8Dec3 b r
      else if b < 248 then utf8Dec4 b r
      else .error .notUtf8 := rfl

theorem utf8DecodeOne_enc (n : Nat) (hn : n < 1114112) (rest : List Nat) :
    utf8DecodeOne (utf8EncodeChar n ++ rest) = .ok (n, rest) := by
  unfold utf8EncodeChar
  by_cases h1 : n < 128
  · simp only [if_pos h1, List.cons_append, List.nil_append]
    rw [utf8DecodeOne_cons, if_pos h1]
  · by_cases h2 : n < 2048
    · simp only [if_neg h1, if_pos h2, List.cons_append, List.nil_append]
      rw [utf8DecodeOne_cons,
        if_neg (by omega), if_neg (by omega), if_pos (by omega)]
      rw [utf8Dec2, if_pos (by simp [isCont]; omega)]
      have h : (192 + n / 64 - 192) * 64 + (128 + n % 64 - 128) = n := by omega
      rw [h]
    · by_cases h3 : n < 65536
      · simp only [if_neg h1, if_neg h2, if_pos h3, List.cons_append, List.nil_append]
        rw [utf8DecodeOne_cons,
          if_neg (by omega), if_neg (by omega), if_neg (by omega), if_pos (by omega)]
        rw [utf8Dec3, if_pos (by simp [isCont]; omega)]
        have h : (224 + n / 4096 - 224) * 4096 + (128 + n / 64 % 64 - 128) * 64 +
            (128 + n % 64 - 128) = n := by omega
        rw [h]
      · simp only [if_neg h1, if_neg h2, if_neg h3, List.cons_append, List.nil_append]
        rw [utf8DecodeOne_cons,
          if_neg (by omega), if_neg (by omega), if_neg (by omega), if_neg (by omega),
          if_pos (by omega)]
        rw [utf8Dec4, if_pos (by simp [isCont]; omega)]
        have h : (240 + n / 262144 - 240) * 262144 + (128 + n / 4096 % 64 - 128) * 4096 +
            (128 + n / 64 % 64 - 128) * 64 + (128 + n % 64 - 128) = n := by omega
        rw [h]

theorem utf8Encode_cons (c : Nat) (cs : List Nat) :
    utf8Encode (c :: cs) = utf8EncodeChar c ++ utf8Encode cs := rfl

theorem utf8Encode_length_ge : ∀ cs : List Nat, cs.length ≤ (utf8Encode cs).length := by
  intro cs
  induction cs with
  | nil => simp [utf8Encode]
  | cons c cs ih =>
    rw [utf8Encode_cons]
    simp only [List.length_cons, List.length_append]
    have := utf8EncodeChar_length_pos c
    omega

theorem utf8DecodeAux_enc :
    ∀ (cs : List Nat) (fuel : Nat), (∀ c ∈ cs, c < 1114112) → cs.length ≤ fuel →
      utf8DecodeAux fuel (utf8Encode cs) = .ok cs := by
  intro cs
  induction cs with
  | nil => intro fuel _ _; simp [utf8Encode, utf8DecodeAux]
  | cons c cs ih =>
    intro fuel hv hlen
    cases fuel with
    | zero => simp at hlen
    | succ fuel =>
      rw [utf8Encode_cons]
      rcases he : utf8EncodeChar c with _ | ⟨b, bs⟩
      · exact absurd he (utf8EncodeChar_ne_nil c)
      · simp only [List.cons_append]
        rw [utf8DecodeAux]
        rw [show (b :: (bs ++ utf8Encode cs)) = (b :: bs) ++ utf8Encode cs from rfl, ← he,
          utf8DecodeOne_enc c (hv c (List.mem_cons_self _ _)) (utf8Encode cs)]
        simp only [exceptBindOk]
        rw [ih fuel (fun x hx => hv x (List.mem_cons_of_mem _ hx)) (by simpa using hlen)]
        simp [exceptBindOk]
        simp

theorem utf8Decode_enc (cs : List Nat) (hv : ∀ c ∈ cs, c < 1114112) :
    utf8Decode (utf8Encode cs) = .ok cs :=
  utf8DecodeAux_enc cs (utf8Encode cs).length hv (utf8Encode_length_ge cs)

/-! ### Shape of encoder output -/

theorem inRange_i64_ofNat {k : Nat} (hk : k < 2 ^ 63) :
    inRange .i64 (Int.ofNat k) = true := by
  simp [inRange, IntWidth.signed, IntWidth.bits]
  omega

theorem inRange_to_i64 {w : IntWidth} {n : Int} (h : inRange w n = true)
    (hmax : n ≤ i64Max) : inRange .i64 n = true := by
  cases w <;> simp [inRange, IntWidth.signed, IntWidth.bits, i64Max] at * <;> omega

theorem encodeVal_ok_shape :
    ∀ d v bs, encodeVal d v = .ok bs →
      bs ≠ [] ∧ (isNullEnc v = false → bs.head? ≠ some 78) := by
  intro d
  induction d with
  | zero => intro v bs h; simp [encodeVal] at h
  | succ d ih =>
    intro v bs h
    cases v with
    | vunit =>
      simp only [encodeVal, Except.ok.injEq] at h
      subst h
      refine ⟨by simp, ?_⟩
      intro hn
      simp [isNullEnc] at hn
    | vbool b =>
      simp only [encodeVal, Except.ok.injEq] at h
      subst h
      exact ⟨by simp, fun _ => by simp⟩
    | vint w n =>
      simp only [encodeVal] at h
      split at h
      · simp at h
      · simp only [Except.ok.injEq] at h
        subst h
        exact ⟨by simp [iToken], fun _ => by simp [iToken]⟩
    | vfloat f =>
      simp only [encodeVal, Except.ok.injEq] at h
      subst h
      exact ⟨by simp [dToken], fun _ => by simp [dToken]⟩
    | vchar c =>
      simp only [encodeVal, Except.ok.injEq] at h
      subst h
      exact ⟨by simp [sToken], fun _ => by simp [sToken]⟩
    | vbytes bsx =>
      simp only [encodeVal, Except.ok.injEq] at h
      subst h
      exact ⟨by simp [sToken], fun _ => by simp [sToken]⟩
    | vstr cs =>
      simp only [encodeVal, Except.ok.injEq] at h
      subst h
      exact ⟨by simp [sToken], fun _ => by simp [sToken]⟩
    | vopt o =>
      cases o with
      | none =>
        simp only [encodeVal, Except.ok.injEq] at h
        subst h
        refine ⟨by simp, ?_⟩
        intro hn
        simp [isNullEnc] at hn
      | some w =>
        simp only [encodeVal] at h
        obtain ⟨h1, h2⟩ := ih w bs h
        refine ⟨h1, ?_⟩
        intro hn
        simp only [isNullEnc] at hn
        exact h2 hn
    | vtuple vs =>
      simp only [encodeVal] at h
      cases he : encSeqElems (encodeVal d) 0 vs with
      | error e => rw [he] at h; simp [exceptBindErr] at h
      | ok body =>
        rw [he] at h
        simp only [exceptBindOk, Except.ok.injEq] at h
        subst h
        exact ⟨by simp [aHeader], fun _ => by simp [aHeader]⟩
    | vseq vs =>
      simp only [encodeVal] at h
      cases he : encSeqElems (encodeVal d) 0 vs with
      | error e => rw [he] at h; simp [exceptBindErr] at h
      | ok body =>
        rw [he] at h
        simp only [exceptBindOk, Except.ok.injEq] at h
        subst h
        exact ⟨by simp [aHeader], fun _ => by simp [aHeader]⟩
    | vrecord fvs =>
      simp only [encodeVal] at h
      cases he : encFields (encodeVal d) fvs with
      | error e => rw [he] at h; simp [exceptBindErr] at h
      | ok body =>
        rw [he] at h
        simp only [exceptBindOk, Except.ok.injEq] at h
        subst h
        exact ⟨by simp [aHeader], fun _ => by simp [aHeader]⟩
    | vmap es =>
      simp only [encodeVal] at h
      cases he : encEntries (encodeVal d) es with
      | error e => rw [he] at h; simp [exceptBindErr] at h
      | ok body =>
        rw [he] at h
        simp only [exceptBindOk, Except.ok.injEq] at h
        subst h
        exact ⟨by simp [aHeader], fun _ => by simp [aHeader]⟩
    | vnewtype w =>
      simp only [encodeVal] at h
      obtain ⟨h1, h2⟩ := ih w bs h
      refine ⟨h1, ?_⟩
      intro hn
      simp only [isNullEnc] at hn
      exact h2 hn

/-! ### Container views: encoding then parsing recovers the elements -/

theorem parseN_enc (enc : HVal → Except Err (List Nat))
    (p : List Nat → Except Err (HVal × List Nat)) :
    ∀ (vs : List HVal) (k : Nat), k + vs.length ≤ 2 ^ 63 →
      (∀ v ∈ vs, ∃ bs, enc v = .ok bs ∧ ∀ rest, p (bs ++ rest) = .ok (v, rest)) →
      ∃ body, encSeqElems enc k vs = .ok body ∧
        ∀ rest, parseN p vs.length (body ++ rest) = .ok (vs, rest) := by
  intro vs
  induction vs with
  | nil =>
    intro k _ _
    exact ⟨[], rfl, fun rest => by simp [parseN]⟩
  | cons v vs ih =>
    intro k hk H
    obtain ⟨bv, hev, hpv⟩ := H v (List.mem_cons_self _ _)
    obtain ⟨body, hebody, hpbody⟩ :=
      ih (k + 1) (by simp at hk ⊢; omega) (fun x hx => H x (List.mem_cons_of_mem _ hx))
    refine ⟨iToken (Int.ofNat k) ++ bv ++ body, ?_, ?_⟩
    · rw [encSeqElems, hev]
      simp only [exceptBindOk]
      rw [hebody]
      simp [exceptBindOk]
    · intro rest
      simp only [List.length_cons]
      rw [parseN]
      rw [show (iToken (Int.ofNat k) ++ bv ++ body) ++ rest =
            iToken (Int.ofNat k) ++ (bv ++ (body ++ rest)) by simp]
      rw [readIntToken_iToken (Int.ofNat k) (inRange_i64_ofNat (by simp at hk; omega))
        (bv ++ (body ++ rest))]
      simp only [exceptBindOk]
      rw [hpv (body ++ rest)]
      simp only [exceptBindOk]
      rw [hpbody rest]
      simp [exceptBindOk]

theorem parseTupleElems_enc (enc : HVal → Except Err (List Nat))
    (p : HTy → List Nat → Except Err (HVal × List Nat)) :
    ∀ (ts : List HTy) (vs : List HVal) (k : Nat), k + vs.length ≤ 2 ^ 63 →
      ts.length = vs.length →
      (∀ pr ∈ ts.zip vs, ∃ bs, enc pr.2 = .ok bs ∧
        ∀ rest, p pr.1 (bs ++ rest) = .ok (pr.2, rest)) →
      ∃ body, encSeqElems enc k vs = .ok body ∧
        ∀ rest, parseTupleElems p ts (body ++ rest) = .ok (vs, rest) := by
  intro ts
  induction ts with
  | nil =>
    intro vs k _ hlen _
    have hvs : vs = [] := by
      cases vs with
      | nil => rfl
      | cons x xs => simp at hlen
    subst hvs
    exact ⟨[], rfl, fun rest => by simp [parseTupleElems]⟩
  | cons t ts ih =>
    intro vs k hk hlen H
    cases vs with
    | nil => simp at hlen
    | cons v vs =>
      obtain ⟨bv, hev, hpv⟩ := H (t, v) (by simp [List.zip_cons_cons])
      obtain ⟨body, hebody, hpbody⟩ :=
        ih vs (k + 1) (by simp at hk ⊢; omega) (by simpa using hlen)
          (fun x hx => H x (by simp [List.zip_cons_cons]; right; exact hx))
      refine ⟨iToken (Int.ofNat k) ++ bv ++ body, ?_, ?_⟩
      · rw [encSeqElems, hev]
        simp only [exceptBindOk]
        rw [hebody]
        simp [exceptBindOk]
      · intro rest
        rw [parseTupleElems]
        rw [show (iToken (Int.ofNat k) ++ bv ++ body) ++ rest =
              iToken (Int.ofNat k) ++ (bv ++ (body ++ rest)) by simp]
        rw [readIntToken_iToken (Int.ofNat k) (inRange_i64_ofNat (by simp at hk; omega))
          (bv ++ (body ++ rest))]
        simp only [exceptBindOk]
        rw [hpv (body ++ rest)]
        simp only [exceptBindOk]
        rw [hpbody rest]
        simp [exceptBindOk]

theorem readKeyToken_keyBytes (kt : KeyTy) (k : HKey) (hk : wfKey kt k = true)
    (rest : List Nat) : readKeyToken kt (keyBytes k ++ rest) = .ok (k, rest) := by
  cases kt with
  | kint =>
    cases k with
    | kint n =>
      have hn : inRange .i64 n = true := hk
      simp only [keyBytes, readKeyToken]
      rw [readIntToken_iToken n hn rest]
      simp [exceptBindOk]
    | kstr cs => simp [wfKey] at hk
  | kstr =>
    cases k with
    | kint n => simp [wfKey] at hk
    | kstr cs =>
      have hcs : ∀ c ∈ cs, c < 1114112 := by
        intro c hc
        simp only [wfKey, List.all_eq_true] at hk
        exact validScalar_lt (hk c hc)
      simp only [keyBytes, readKeyToken]
      rw [readStrToken_sToken (utf8Encode cs) rest]
      simp only [exceptBindOk]
      rw [utf8Decode_enc cs hcs]

theorem parseMapPairs_enc (enc : HVal → Except Err (List Nat))
    (p : List Nat → Except Err (HVal × List Nat)) (kt : KeyTy) :
    ∀ (es : List (HKey × HVal)),
      (∀ e ∈ es, wfKey kt e.1 = true ∧ ∃ bs, enc e.2 = .ok bs ∧
        ∀ rest, p (bs ++ rest) = .ok (e.2, rest)) →
      ∃ body, encEntries enc es = .ok body ∧
        ∀ rest, parseMapPairs p kt es.length (body ++ rest) = .ok (es, rest) := by
  intro es
  induction es with
  | nil =>
    intro _
    exact ⟨[], rfl, fun rest => by simp [parseMapPairs]⟩
  | cons e es ih =>
    intro H
    obtain ⟨hkey, bv, hev, hpv⟩ := H e (List.mem_cons_self _ _)
    obtain ⟨body, hebody, hpbody⟩ := ih (fun x hx => H x (List.mem_cons_of_mem _ hx))
    obtain ⟨k, v⟩ := e
    refine ⟨keyBytes k ++ bv ++ body, ?_, ?_⟩
    · rw [encEntries, hev]
      simp only [exceptBindOk]
      rw [hebody]
      simp [exceptBindOk]
    · intro rest
      simp only [List.length_cons]
      rw [parseMapPairs]
      rw [show (keyBytes k ++ bv ++ body) ++ rest =
            keyBytes k ++ (bv ++ (body ++ rest)) by simp]
      rw [readKeyToken_keyBytes kt k hkey (bv ++ (body ++ rest))]
      simp only [exceptBindOk]
      rw [hpv (body ++ rest)]
      simp only [exceptBindOk]
      rw [hpbody rest]
      simp [exceptBindOk]

theorem parseRecordPairs_enc (enc : HVal → Except Err (List Nat))
    (p : HTy → List Nat → Except Err (HVal × List Nat))
    (tys : List (List Nat × HTy)) :
    ∀ (fvs : List (List Nat × HVal)),
      (∀ nv ∈ fvs, ∃ ty, lookupTy nv.1 tys = some ty ∧ ∃ bs, enc nv.2 = .ok bs ∧
        ∀ rest, p ty (bs ++ rest) = .ok (nv.2, rest)) →
      ∃ body, encFields enc fvs = .ok body ∧
        ∀ rest, parseRecordPairs p tys fvs.length (body ++ rest) = .ok (fvs, rest) := by
  intro fvs
  induction fvs with
  | nil =>
    intro _
    exact ⟨[], rfl, fun rest => by simp [parseRecordPairs]⟩
  | cons nv fvs ih =>
    intro H
    obtain ⟨ty, hlk, bv, hev, hpv⟩ := H nv (List.mem_cons_self _ _)
    obtain ⟨body, hebody, hpbody⟩ := ih (fun x hx => H x (List.mem_cons_of_mem _ hx))
    obtain ⟨n, v⟩ := nv
    refine ⟨sToken n ++ bv ++ body, ?_, ?_⟩
    · rw [encFields, hev]
      simp only [exceptBindOk]
      rw [hebody]
      simp [exceptBindOk]
    · intro rest
      simp only [List.length_cons]
      rw [parseRecordPairs]
      rw [show (sToken n ++ bv ++ body) ++ rest =
            sToken n ++ (bv ++ (body ++ rest)) by simp]
      rw [readStrToken_sToken n (bv ++ (body ++ rest))]
      simp only [exceptBindOk]
      rw [hlk]
      simp only []
      rw [hpv (body ++ rest)]
      simp only [exceptBindOk]
      rw [hpbody rest]
      simp [exceptBindOk]

/-! ### Record bookkeeping: distinct declared names make lookups and
finalization recover the encoded fields -/

theorem containsName_of_mem :
    ∀ (x : List Nat) (ns : List (List Nat)), x ∈ ns → containsName x ns = true := by
  intro x ns
  induction ns with
  | nil => intro h; simp at h
  | cons m ms ih =>
    intro h
    rcases List.mem_cons.mp h with h | h
    · subst h; simp [containsName]
    · simp [containsName, ih h]

theorem lookupTy_mem_names :
    ∀ (tys : List (List Nat × HTy)) (x : List Nat) (ty : HTy),
      lookupTy x tys = some ty → containsName x (tys.map Prod.fst) = true := by
  intro tys
  induction tys with
  | nil => intro x ty h; simp [lookupTy] at h
  | cons nty tys ih =>
    intro x ty h
    obtain ⟨m, ty'⟩ := nty
    simp only [lookupTy] at h
    by_cases hx : x = m
    · simp [containsName, hx]
    · rw [if_neg hx] at h
      simp [containsName, ih x ty h]

theorem lookupVal_mem_names :
    ∀ (fvs : List (List Nat × HVal)) (x : List Nat) (v : HVal),
      lookupVal x fvs = some v → containsName x (fvs.map Prod.fst) = true := by
  intro fvs
  induction fvs with
  | nil => intro x v h; simp [lookupVal] at h
  | cons nv fvs ih =>
    intro x v h
    obtain ⟨m, v'⟩ := nv
    simp only [lookupVal] at h
    by_cases hx : x = m
    · simp [containsName, hx]
    · rw [if_neg hx] at h
      simp [containsName, ih x v h]

theorem lookupVal_self :
    ∀ (fvs : List (List Nat × HVal)), namesNodupB (fvs.map Prod.fst) = true →
      ∀ nv ∈ fvs, lookupVal nv.1 fvs = some nv.2 := by
  intro fvs
  induction fvs with
  | nil => intro _ nv h; simp at h
  | cons mv fvs ih =>
    intro hnod nv hnv
    obtain ⟨m, v⟩ := mv
    simp only [List.map_cons, namesNodupB, Bool.and_eq_true, Bool.not_eq_true'] at hnod
    rcases List.mem_cons.mp hnv with h | h
    · subst h
      simp [lookupVal]
    · have hmem : containsName nv.1 (fvs.map Prod.fst) = true :=
        containsName_of_mem nv.1 _ (List.mem_map.mpr ⟨nv, h, rfl⟩)
      have hne : ¬ nv.1 = m := by
        intro heq
        rw [heq] at hmem
        rw [hmem] at hnod
        exact absurd hnod.1 (by simp)
      simp only [lookupVal, if_neg hne]
      exact ih hnod.2 nv h

theorem wfFields_names (P : HTy → HVal → Bool) :
    ∀ tys fvs, wfFields P tys fvs = true → tys.map Prod.fst = fvs.map Prod.fst := by
  intro tys
  induction tys with
  | nil =>
    intro fvs h
    cases fvs with
    | nil => rfl
    | cons x xs => simp [wfFields] at h
  | cons nty tys ih =>
    intro fvs h
    obtain ⟨n, ty⟩ := nty
    cases fvs with
    | nil => simp [wfFields] at h
    | cons mv fvs =>
      obtain ⟨m, v⟩ := mv
      simp only [wfFields, Bool.and_eq_true, decide_eq_true_eq] at h
      simp [h.1.1, ih fvs h.2]

theorem wfFields_lookupTy (P : HTy → HVal → Bool) :
    ∀ tys fvs, wfFields P tys fvs = true → namesNodupB (tys.map Prod.fst) = true →
      ∀ nv ∈ fvs, ∃ ty, lookupTy nv.1 tys = some ty ∧ P ty nv.2 = true := by
  intro tys
  induction tys with
  | nil =>
    intro fvs h _ nv hnv
    cases fvs with
    | nil => simp at hnv
    | cons x xs => simp [wfFields] at h
  | cons nty tys ih =>
    intro fvs h hnod nv hnv
    obtain ⟨n, ty⟩ := nty
    cases fvs with
    | nil => simp at hnv
    | cons mv fvs =>
      obtain ⟨m, v⟩ := mv
      simp only [wfFields, Bool.and_eq_true, decide_eq_true_eq] at h
      obtain ⟨⟨hnm, hP⟩, hrest⟩ := h
      simp only [List.map_cons, namesNodupB, Bool.and_eq_true, Bool.not_eq_true'] at hnod
      rcases List.mem_cons.mp hnv with hh | hh
      · subst hh
        refine ⟨ty, ?_, ?_⟩
        · simp [lookupTy, hnm]
        · exact hP
      · obtain ⟨ty', hlk, hP'⟩ := ih fvs hrest hnod.2 nv hh
        have hne : ¬ nv.1 = n := by
          intro heq
          have := lookupTy_mem_names tys nv.1 ty' hlk
          rw [heq] at this
          rw [this] at hnod
          exact absurd hnod.1 (by simp)
        exact ⟨ty', by simp [lookupTy, if_neg hne, hlk], hP'⟩

theorem finalize_of_lookup (P : HTy → HVal → Bool) :
    ∀ tys fvs found, wfFields P tys fvs = true →
      (∀ nv ∈ fvs, lookupVal nv.1 found = some nv.2) →
      finalizeRecord tys found = .ok fvs := by
  intro tys
  induction tys with
  | nil =>
    intro fvs found h _
    cases fvs with
    | nil => rfl
    | cons x xs => simp [wfFields] at h
  | cons nty tys ih =>
    intro fvs found h hlk
    obtain ⟨n, ty⟩ := nty
    cases fvs with
    | nil => simp [wfFields] at h
    | cons mv fvs =>
      obtain ⟨m, v⟩ := mv
      simp only [wfFields, Bool.and_eq_true, decide_eq_true_eq] at h
      obtain ⟨⟨hnm, _⟩, hrest⟩ := h
      have hm : lookupVal n found = some v := by
        rw [hnm]
        exact hlk (m, v) (List.mem_cons_self _ _)
      have hstep : finalizeRecord ((n, ty) :: tys) found =
          (finalizeRecord tys found) >>= (fun fs => Except.ok ((n, v) :: fs)) := by
        cases ty <;> simp [finalizeRecord, hm]
      rw [hstep, ih fvs found hrest (fun x hx => hlk x (List.mem_cons_of_mem _ hx))]
      simp [exceptBindOk, hnm]

theorem wfList_length (P : HTy → HVal → Bool) :
    ∀ ts vs, wfList P ts vs = true → ts.length = vs.length := by
  intro ts
  induction ts with
  | nil =>
    intro vs h
    cases vs with
    | nil => rfl
    | cons x xs => simp [wfList] at h
  | cons t ts ih =>
    intro vs h
    cases vs with
    | nil => simp [wfList] at h
    | cons v vs =>
      simp only [wfList, Bool.and_eq_true] at h
      simp [ih vs h.2]

theorem wfList_zip (P : HTy → HVal → Bool) :
    ∀ ts vs, wfList P ts vs = true → ∀ pr ∈ ts.zip vs, P pr.1 pr.2 = true := by
  intro ts
  induction ts with
  | nil => intro vs h pr hpr; simp at hpr
  | cons t ts ih =>
    intro vs h pr hpr
    cases vs with
    | nil => simp [wfList] at h
    | cons v vs =>
      simp only [wfList, Bool.and_eq_true] at h
      simp only [List.zip_cons_cons, List.mem_cons] at hpr
      rcases hpr with hpr | hpr
      · subst hpr; exact h.1
      · exact ih vs h.2 pr hpr

/-! ### Master round-trip theorem: a well-formed host value encodes
successfully and its encoding parses back to exactly the same value, at any
matching depth budget. -/

theorem rt_master :
    ∀ (d : Nat) (t : HTy) (v : HVal), wfB d t v = true →
      ∃ bs, encodeVal d v = .ok bs ∧
        ∀ rest, fromValue d t (bs ++ rest) = .ok (v, rest) := by
  intro d
  induction d with
  | zero => intro t v h; simp [wfB] at h
  | succ d ih =>
    intro t v h
    cases t with
    | unit =>
      cases v
      case vunit => exact ⟨[78, 59], rfl, fun rest => rfl⟩
      all_goals simp [wfB] at h
    | bool =>
      cases v
      case vbool b =>
        cases b
        · exact ⟨[98, 58, 48, 59], rfl, fun rest => rfl⟩
        · exact ⟨[98, 58, 49, 59], rfl, fun rest => rfl⟩
      all_goals simp [wfB] at h
    | int w =>
      cases v
      case vint w' n =>
        simp only [wfB, Bool.and_eq_true, decide_eq_true_eq] at h
        obtain ⟨⟨hw, hr⟩, hmax⟩ := h
        subst hw
        refine ⟨iToken n, ?_, ?_⟩
        · simp only [encodeVal]
          rw [if_neg (by omega : ¬ i64Max < n)]
        · intro rest
          simp only [fromValue]
          rw [readIntToken_iToken n (inRange_to_i64 hr hmax) rest]
          simp [exceptBindOk, hr]
      all_goals simp [wfB] at h
    | float =>
      cases v
      case vfloat f =>
        have hf : wfFloat f = true := by simpa [wfB] using h
        refine ⟨dToken f, by simp [encodeVal], ?_⟩
        intro rest
        simp only [fromValue]
        rw [if_neg (by simp [dToken] : ¬ (dToken f ++ rest).head? = some 105)]
        rw [show dToken f ++ rest = 100 :: 58 :: (dBody f ++ 59 :: rest) by simp [dToken]]
        rw [expectTag_cons]
        simp only [exceptBindOk]
        rw [expectByte_cons]
        simp only [exceptBindOk]
        rw [readFloatBody_dBody f hf rest]
        simp only [exceptBindOk]
        rw [expectByte_cons]
        simp [exceptBindOk]
      all_goals simp [wfB] at h
    | char =>
      cases v
      case vchar c =>
        have hc : validScalar c = true := by simpa [wfB] using h
        refine ⟨sToken (utf8EncodeChar c), by simp [encodeVal], ?_⟩
        intro rest
        simp only [fromValue]
        rw [readStrToken_sToken (utf8EncodeChar c) rest]
        simp only [exceptBindOk]
        have hdec : utf8DecodeOne (utf8EncodeChar c) = .ok (c, []) := by
          have h2 := utf8DecodeOne_enc c (validScalar_lt hc) []
          simpa using h2
        rw [hdec]
      all_goals simp [wfB] at h
    | bytes =>
      cases v
      case vbytes bsx =>
        refine ⟨sToken bsx, by simp [encodeVal], ?_⟩
        intro rest
        simp only [fromValue]
        rw [readStrToken_sToken bsx rest]
        simp [exceptBindOk]
      all_goals simp [wfB] at h
    | str =>
      cases v
      case vstr cs =>
        have hcs : ∀ x ∈ cs, x < 1114112 := by
          simp only [wfB, List.all_eq_true] at h
          exact fun x hx => validScalar_lt (h x hx)
        refine ⟨sToken (utf8Encode cs), by simp [encodeVal], ?_⟩
        intro rest
        simp only [fromValue]
        rw [readStrToken_sToken (utf8Encode cs) rest]
        simp only [exceptBindOk]
        rw [utf8Decode_enc cs hcs]
      all_goals simp [wfB] at h
    | opt t' =>
      cases v
      case vopt o =>
        cases o with
        | none => exact ⟨[78, 59], rfl, fun rest => rfl⟩
        | some w =>
          simp only [wfB, Bool.and_eq_true, Bool.not_eq_true'] at h
          obtain ⟨hww, hnn⟩ := h
          obtain ⟨bs, he, hp⟩ := ih t' w hww
          refine ⟨bs, by simpa [encodeVal] using he, ?_⟩
          intro rest
          simp only [fromValue]
          obtain ⟨hne, hhead⟩ := encodeVal_ok_shape d w bs he
          have hh : ¬ (bs ++ rest).head? = some 78 := by
            cases bs with
            | nil => exact absurd rfl hne
            | cons b bs' => simpa using hhead hnn
          rw [if_neg hh]
          rw [hp rest]
          simp [exceptBindOk]
      all_goals simp [wfB] at h
    | tuple ts =>
      cases v
      case vtuple vs =>
        simp only [wfB, Bool.and_eq_true] at h
        obtain ⟨hwl, hlen63⟩ := h
        have hlen : ts.length = vs.length := wfList_length (wfB d) ts vs hwl
        obtain ⟨body, hebody, hpbody⟩ :=
          parseTupleElems_enc (encodeVal d) (fromValue d) ts vs 0
            (by simp [lenOk] at hlen63; omega) hlen
            (fun pr hpr => ih pr.1 pr.2 (wfList_zip (wfB d) ts vs hwl pr hpr))
        refine ⟨aHeader vs.length ++ body ++ [125], ?_, ?_⟩
        · simp [encodeVal, hebody, exceptBindOk]
        · intro rest
          simp only [fromValue]
          rw [show (aHeader vs.length ++ body ++ [125]) ++ rest =
                aHeader vs.length ++ (body ++ 125 :: rest) by simp]
          rw [readArrayHeader_aHeader]
          simp only [exceptBindOk]
          rw [if_pos hlen.symm]
          rw [hpbody (125 :: rest)]
          simp only [exceptBindOk]
          rw [expectByte_cons]
          simp [exceptBindOk]
      all_goals simp [wfB] at h
    | seq t' =>
      cases v
      case vseq vs =>
        simp only [wfB, Bool.and_eq_true] at h
        obtain ⟨hall, hlen63⟩ := h
        rw [List.all_eq_true] at hall
        obtain ⟨body, hebody, hpbody⟩ :=
          parseN_enc (encodeVal d) (fromValue d t') vs 0
            (by simp [lenOk] at hlen63; omega)
            (fun x hx => ih t' x (hall x hx))
        refine ⟨aHeader vs.length ++ body ++ [125], ?_, ?_⟩
        · simp [encodeVal, hebody, exceptBindOk]
        · intro rest
          simp only [fromValue]
          rw [show (aHeader vs.length ++ body ++ [125]) ++ rest =
                aHeader vs.length ++ (body ++ 125 :: rest) by simp]
          rw [readArrayHeader_aHeader]
          simp only [exceptBindOk]
          rw [hpbody (125 :: rest)]
          simp only [exceptBindOk]
          rw [expectByte_cons]
          simp [exceptBindOk]
      all_goals simp [wfB] at h
    | record tys =>
      cases v
      case vrecord fvs =>
        simp only [wfB, Bool.and_eq_true] at h
        obtain ⟨hwf, hnod⟩ := h
        have hnames : tys.map Prod.fst = fvs.map Prod.fst := wfFields_names (wfB d) tys fvs hwf
        have hH : ∀ nv ∈ fvs, ∃ ty, lookupTy nv.1 tys = some ty ∧
            ∃ bs, encodeVal d nv.2 = .ok bs ∧
              ∀ rest, fromValue d ty (bs ++ rest) = .ok (nv.2, rest) := by
          intro nv hnv
          obtain ⟨ty, hlk, hP⟩ := wfFields_lookupTy (wfB d) tys fvs hwf hnod nv hnv
          exact ⟨ty, hlk, ih ty nv.2 hP⟩
        obtain ⟨body, hebody, hpbody⟩ :=
          parseRecordPairs_enc (encodeVal d) (fromValue d) tys fvs hH
        refine ⟨aHeader fvs.length ++ body ++ [125], ?_, ?_⟩
        · simp [encodeVal, hebody, exceptBindOk]
        · intro rest
          simp only [fromValue]
          rw [show (aHeader fvs.length ++ body ++ [125]) ++ rest =
                aHeader fvs.length ++ (body ++ 125 :: rest) by simp]
          rw [readArrayHeader_aHeader]
          simp only [exceptBindOk]
          rw [hpbody (125 :: rest)]
          simp only [exceptBindOk]
          rw [expectByte_cons]
          simp only [exceptBindOk]
          have hfin : finalizeRecord tys fvs = .ok fvs := by
            apply finalize_of_lookup (wfB d) tys fvs fvs hwf
            apply lookupVal_self
            rw [← hnames]
            exact hnod
          rw [hfin]
          simp [exceptBindOk]
      all_goals simp [wfB] at h
    | map kt vt =>
      cases v
      case vmap es =>
        simp only [wfB] at h
        rw [List.all_eq_true] at h
        obtain ⟨body, hebody, hpbody⟩ :=
          parseMapPairs_enc (encodeVal d) (fromValue d vt) kt es
            (fun e he' => by
              have hh := h e he'
              simp only [Bool.and_eq_true] at hh
              exact ⟨hh.1, ih vt e.2 hh.2⟩)
        refine ⟨aHeader es.length ++ body ++ [125], ?_, ?_⟩
        · simp [encodeVal, hebody, exceptBindOk]
        · intro rest
          simp only [fromValue]
          rw [show (aHeader es.length ++ body ++ [125]) ++ rest =
                aHeader es.length ++ (body ++ 125 :: rest) by simp]
          rw [readArrayHeader_aHeader]
          simp only [exceptBindOk]
          rw [hpbody (125 :: rest)]
          simp only [exceptBindOk]
          rw [expectByte_cons]
          simp [exceptBindOk]
      all_goals simp [wfB] at h
    | newtype t' =>
      cases v
      case vnewtype w =>
        have hw : wfB d t' w = true := by simpa [wfB] using h
        obtain ⟨bs, he, hp⟩ := ih t' w hw
        refine ⟨bs, by simpa [encodeVal] using he, ?_⟩
        intro rest
        simp only [fromValue]
        rw [hp rest]
        simp [exceptBindOk]
      all_goals simp [wfB] at h

/-! ### The top-level round-trip law -/

theorem roundtrip_of_wf (t : HTy) (v : HVal) (h : wfB defaultDepth t v = true) :
    (to_vec v >>= from_bytes t) = .ok v := by
  obtain ⟨bs, he, hp⟩ := rt_master defaultDepth t v h
  rw [to_vec, he, exceptBindOk, from_bytes]
  have hbs := hp []
  rw [List.append_nil] at hbs
  rw [hbs]
  simp

theorem readIntToken_iToken_oob (m : Int) (hm : inRange .i64 m = false) (rest : List Nat) :
    readIntToken (iToken m ++ rest) = .error .integerOutOfRange := by
  simp only [iToken, List.append_assoc, List.cons_append, List.nil_append]
  rw [readIntToken]
  rw [expectTag_cons, exceptBindOk, expectByte_cons, exceptBindOk,
    readInt_intToDecimal m (59 :: rest) (by exact rfl), exceptBindOk]
  simp [hm]

theorem fromValue_int_oob_i64 (d : Nat) (w : IntWidth) (m : Int) (rest : List Nat)
    (hm : inRange .i64 m = false) :
    fromValue (d + 1) (.int w) (iToken m ++ rest) = .error .integerOutOfRange := by
  simp only [fromValue]
  rw [readIntToken_iToken_oob m hm rest]
  simp [exceptBindErr]

theorem fromValue_int_oob_width (d : Nat) (w : IntWidth) (m : Int) (rest : List Nat)
    (h64 : inRange .i64 m = true) (hw : inRange w m = false) :
    fromValue (d + 1) (.int w) (iToken m ++ rest) = .error .integerOutOfRange := by
  simp only [fromValue]
  rw [readIntToken_iToken m h64 rest]
  simp [exceptBindOk, hw]

/-! ### The claims -/

/-- Claim C1: for every host value `v` of a supported primitive or composite
type `T` (booleans, integers, floats, chars, byte strings, text strings,
optionals, tuples, sequences, records, string-keyed maps — the well-formed
domain captured by `wfB` at the default depth budget), decoding the encoding
of `v` returns exactly `v`: `from_bytes::<T>(to_vec(&v)) == Ok(v)`. -/
theorem c1_roundtrip_encode_decode (t : HTy) (v : HVal)
    (h : wfB defaultDepth t v = true) :
    (to_vec v >>= from_bytes t) = .ok v :=
  roundtrip_of_wf t v h

/-- Witness for C1 at a concrete record value with an integer, an optional
text string, and nested content. -/
theorem c1_roundtrip_encode_decode_witness :
    wfB defaultDepth (.record [([105, 100], .int .u32), ([110], .opt .str)])
      (.vrecord [([105, 100], .vint .u32 42), ([110], .vopt (some (.vstr [104, 105])))]) =
      true ∧
    (to_vec (.vrecord [([105, 100], .vint .u32 42),
        ([110], .vopt (some (.vstr [104, 105])))]) >>=
      from_bytes (.record [([105, 100], .int .u32), ([110], .opt .str)])) =
      .ok (.vrecord [([105, 100], .vint .u32 42),
        ([110], .vopt (some (.vstr [104, 105])))]) :=
  ⟨rfl, c1_roundtrip_encode_decode _ _ rfl⟩

/-- Claim C2: encoding a record emits an `a:<n>:{…}` array keyed by the
declared field names as `s:` tokens in declared order, and a nested sequence
uses index keys `i:0`, `i:1`, … in order; concretely, encoding the record
`{id: 42, name: "Bob", tags: ["foo", "bar"]}` produces exactly the bytes
`a:3:{s:2:"id";i:42;s:4:"name";s:3:"Bob";s:4:"tags";a:2:{i:0;s:3:"foo";i:1;s:3:"bar";}}`. -/
theorem c2_record_field_order_e4 :
    to_vec (.vrecord [(asc "id", .vint .u32 42), (asc "name", .vstr (asc "Bob")),
        (asc "tags", .vseq [.vstr (asc "foo"), .vstr (asc "bar")])]) =
      .ok (asc "a:3:\x7bs:2:\"id\";i:42;s:4:\"name\";s:3:\"Bob\";s:4:\"tags\";a:2:\x7bi:0;s:3:\"foo\";i:1;s:3:\"bar\";\x7d\x7d") :=
  rfl

/-- Claim C3: the unordered-array helper materializes the integer-keyed
mapping, requires the minimum key to be nonnegative, and emits a sequence of
length `max_key + 1` in ascending key order with the element default filling
holes; concretely `a:3:{i:2;s:1:"c";i:0;s:1:"a";i:3;s:1:"d";}` decoded into a
sequence of text strings yields `["a", "", "c", "d"]`. -/
theorem c3_unordered_array_e5 :
    deserialize_unordered_array .str
        (asc "a:3:\x7bi:2;s:1:\"c\";i:0;s:1:\"a\";i:3;s:1:\"d\";\x7d") =
      .ok (.vseq [.vstr (asc "a"), .vstr [], .vstr (asc "c"), .vstr (asc "d")], []) :=
  rfl

/-- Claim C4: the encoder never renormalizes integer-looking string keys to
integer keys: a string key always encodes as an `s:` token (the host's
declared key type is authoritative), and concretely a map with string key
`"0"` encodes as `a:1:{s:1:"0";s:0:"";}` with the key as `s:1:"0"`. -/
theorem c4_string_keys_not_renormalized :
    (∀ cs : List Nat, keyBytes (.kstr cs) = sToken (utf8Encode cs)) ∧
    to_vec (.vmap [(.kstr (asc "0"), .vstr [])]) =
      .ok (asc "a:1:\x7bs:1:\"0\";s:0:\"\";\x7d") :=
  ⟨fun _ => rfl, rfl⟩

/-- Claim C5: whenever the input consists of one complete top-level value
followed by at least one additional byte, `from_bytes` fails with
`TrailingData` rather than returning a value. -/
theorem c5_trailing_data (t : HTy) (input : List Nat) (v : HVal) (rest : List Nat)
    (hparse : fromValue defaultDepth t input = .ok (v, rest)) (hne : rest ≠ []) :
    from_bytes t input = .error .trailingData := by
  rw [from_bytes, hparse]
  simp [hne]

/-- Witness for C5: `b:1;` followed by one extra byte. -/
theorem c5_trailing_data_witness :
    fromValue defaultDepth .bool [98, 58, 49, 59, 88] = .ok (.vbool true, [88]) ∧
      from_bytes .bool [98, 58, 49, 59, 88] = .error .trailingData :=
  ⟨rfl, c5_trailing_data .bool _ _ _ rfl (by simp)⟩

/-- Claim C6: encoding any integer value above `i64::MAX` (in particular any
such `u64`) fails with `IntegerOutOfRange`; decoding an `i:` token whose
value lies outside the demanded width's range fails with `IntegerOutOfRange`
(whether the token value exceeds the 64-bit signed wire range or merely the
demanded width's range); and `i64::MIN`/`i64::MAX` round-trip losslessly. -/
theorem c6_integer_range_boundaries :
    (∀ (w : IntWidth) (n : Int), i64Max < n →
        encodeVal defaultDepth (.vint w n) = .error .integerOutOfRange) ∧
    (∀ (w : IntWidth) (m : Int) (rest : List Nat), inRange .i64 m = false →
        fromValue defaultDepth (.int w) (iToken m ++ rest) = .error .integerOutOfRange) ∧
    (∀ (w : IntWidth) (m : Int) (rest : List Nat), inRange .i64 m = true →
        inRange w m = false →
        fromValue defaultDepth (.int w) (iToken m ++ rest) = .error .integerOutOfRange) ∧
    (to_vec (.vint .i64 i64Min) >>= from_bytes (.int .i64)) = .ok (.vint .i64 i64Min) ∧
    (to_vec (.vint .i64 i64Max) >>= from_bytes (.int .i64)) = .ok (.vint .i64 i64Max) := by
  refine ⟨?_, ?_, ?_, rfl, rfl⟩
  · intro w n hn
    show encodeVal (127 + 1) (.vint w n) = .error .integerOutOfRange
    simp only [encodeVal]
    rw [if_pos hn]
  · intro w m rest hm
    exact fromValue_int_oob_i64 127 w m rest hm
  · intro w m rest h64 hw
    exact fromValue_int_oob_width 127 w m rest h64 hw

/-- Witness for C6: `u64` value `2^63` fails on encode; the token `i:256;`
demanded as `u8` and the token `i:9223372036854775808;` demanded as `u64`
fail on decode. -/
theorem c6_integer_range_boundaries_witness :
    encodeVal defaultDepth (.vint .u64 (2 ^ 63)) = .error .integerOutOfRange ∧
      fromValue defaultDepth (.int .u8) (iToken 256 ++ []) = .error .integerOutOfRange ∧
      fromValue defaultDepth (.int .u64) (iToken (2 ^ 63) ++ []) =
        .error .integerOutOfRange :=
  ⟨c6_integer_range_boundaries.1 .u64 (2 ^ 63) (by decide),
    c6_integer_range_boundaries.2.2.1 .u8 256 [] (by decide) (by decide),
    c6_integer_range_boundaries.2.1 .u64 (2 ^ 63) [] (by decide)⟩

/-- Claim C7: declared fields absent from the input array decode to none for
optional fields and the decode succeeds (concretely spec example E3), while
an absent required field fails with `MissingField`. -/
theorem c7_absent_fields :
    from_bytes (.record [(asc "province", .opt .str), (asc "postalcode", .opt .str),
        (asc "country", .opt .str)])
      (asc "a:1:\x7bs:8:\"province\";s:29:\"Newfoundland and Labrador, CA\";\x7d") =
      .ok (.vrecord
        [(asc "province", .vopt (some (.vstr (asc "Newfoundland and Labrador, CA")))),
          (asc "postalcode", .vopt none), (asc "country", .vopt none)]) ∧
    from_bytes (.record [(asc "x", .int .i64)]) (asc "a:0:\x7b\x7d") =
      .error .missingField :=
  ⟨rfl, rfl⟩

/-- Claim C8: non-finite floats use PHP's textual spellings — NAN, INF,
-INF — on encode, and those tokens decode back to the same model values
(equality of the wire-level float model stands in for bit-pattern equality
of the infinities); `d:NAN;` decodes to a value satisfying `isNan`. -/
theorem c8_nonfinite_floats :
    to_vec (.vfloat .nan) = .ok (asc "d:NAN;") ∧
    to_vec (.vfloat .inf) = .ok (asc "d:INF;") ∧
    to_vec (.vfloat .neginf) = .ok (asc "d:-INF;") ∧
    from_bytes .float (asc "d:NAN;") = .ok (.vfloat .nan) ∧
    from_bytes .float (asc "d:INF;") = .ok (.vfloat .inf) ∧
    from_bytes .float (asc "d:-INF;") = .ok (.vfloat .neginf) ∧
    PFloat.isNan .nan = true :=
  ⟨rfl, rfl, rfl, rfl, rfl, rfl, rfl⟩

/-- Claim C9: for every byte sequence, including ones containing the
delimiter octets `"`, `;`, `}` and NUL, the encoder emits
`s:<len>:"<bytes>";` with `<len>` exactly the raw byte count, and the decoder
reads exactly `<len>` bytes after the opening quote, so every byte string
round-trips unchanged. -/
theorem c9_bytes_eight_bit_clean (bs : List Nat) (_h : ∀ b ∈ bs, b < 256) :
    to_vec (.vbytes bs) =
      .ok ([115, 58] ++ natToDigits bs.length ++ [58, 34] ++ bs ++ [34, 59]) ∧
    from_bytes .bytes
        ([115, 58] ++ natToDigits bs.length ++ [58, 34] ++ bs ++ [34, 59]) =
      .ok (.vbytes bs) := by
  constructor
  · rfl
  · have h1 : [115, 58] ++ natToDigits bs.length ++ [58, 34] ++ bs ++ [34, 59] =
        sToken bs ++ [] := by simp [sToken]
    rw [h1, from_bytes]
    have h2 : fromValue defaultDepth .bytes (sToken bs ++ []) = .ok (.vbytes bs, []) := by
      show fromValue (127 + 1) .bytes (sToken bs ++ []) = _
      simp only [fromValue]
      rw [readStrToken_sToken bs []]
      simp [exceptBindOk]
    rw [h2]
    simp

/-- Witness for C9 on a payload consisting solely of delimiter octets. -/
theorem c9_bytes_eight_bit_clean_witness :
    (∀ b ∈ ([34, 59, 125, 0] : List Nat), b < 256) ∧
    (to_vec (.vbytes [34, 59, 125, 0]) =
      .ok ([115, 58] ++ natToDigits ([34, 59, 125, 0] : List Nat).length ++ [58, 34] ++
        [34, 59, 125, 0] ++ [34, 59]) ∧
    from_bytes .bytes
        ([115, 58] ++ natToDigits ([34, 59, 125, 0] : List Nat).length ++ [58, 34] ++
          [34, 59, 125, 0] ++ [34, 59]) =
      .ok (.vbytes [34, 59, 125, 0])) :=
  ⟨by decide, c9_bytes_eight_bit_clean [34, 59, 125, 0] (by decide)⟩

/-- Claim C10: a newtype struct encodes transparently as the encoding of its
inner value, and for every inner `i32` value `n` the newtype round-trips:
`from_bytes::<MyNewtype>(to_vec(&MyNewtype(n))) == Ok(MyNewtype(n))`. -/
theorem c10_newtype_transparent :
    (∀ (d : Nat) (w : HVal), encodeVal (d + 1) (.vnewtype w) = encodeVal d w) ∧
    (∀ n : Int, inRange .i32 n = true →
      (to_vec (.vnewtype (.vint .i32 n)) >>= from_bytes (.newtype (.int .i32))) =
        .ok (.vnewtype (.vint .i32 n))) := by
  constructor
  · intro d w
    rfl
  · intro n hn
    apply roundtrip_of_wf
    show wfB (126 + 1 + 1) (.newtype (.int .i32)) (.vnewtype (.vint .i32 n)) = true
    show wfB (126 + 1) (.int .i32) (.vint .i32 n) = true
    have hmax : n ≤ i64Max := by
      simp only [inRange, IntWidth.signed, IntWidth.bits, if_true, decide_eq_true_eq] at hn
      simp only [i64Max]
      omega
    show (decide (IntWidth.i32 = IntWidth.i32) && inRange .i32 n &&
      decide (n ≤ i64Max)) = true
    simp [hn, hmax]

/-- Witness for C10 at `n = -1`. -/
theorem c10_newtype_transparent_witness :
    inRange .i32 (-1) = true ∧
      (to_vec (.vnewtype (.vint .i32 (-1))) >>= from_bytes (.newtype (.int .i32))) =
        .ok (.vnewtype (.vint .i32 (-1))) :=
  ⟨rfl, c10_newtype_transparent.2 (-1) rfl⟩

end PhpSerde
